import Mathlib

/-!
Verification of the operator evaluation unit (`src/operator.rs`) of the
miri abstract-machine interpreter.

The file shallowly embeds `binary_op`, `unary_op` and their helper macros
(`overflow!`, `int_arithmetic!`, `int_shift!`, `float_arithmetic!`,
`unrelated_ptr_ops`) as Lean functions over `Nat`/`Int`, with machine
integers represented as 64-bit bit-containers (`Nat` with explicit
`% 2 ^ w` wrapping, two's complement for signed kinds).

The primitive-value module (`value.rs`), the pointer type (`memory.rs`)
and the error type (`error.rs`) are not part of the sources; they are
modelled from the specification document, as marked on each definition.
-/

namespace MiriOp

/-- Modelled from the spec: a pointer is a pair of an allocation identity
and an integer offset (`memory.rs` is not in the sources).  The
allocation identity is an opaque comparable token; `none` is the
sentinel "no allocation" marker used when a plain integer is
reinterpreted as a pointer. -/
structure Pointer where
  alloc_id : Option Nat
  offset : Nat
deriving DecidableEq, Repr

/-- Modelled from the spec (§7, `error.rs` is not in the sources): the
typed failures of the evaluator.  Diagnostic message payloads are
omitted.  `Bug` stands for the fatal `bug!` macro (internal invariant
violation) and `Panic` for a native arithmetic trap (division or
remainder by zero inside `overflowing_div`/`overflowing_rem`). -/
inductive EvalError where
  | Unimplemented
  | InvalidPointerMath
  | ReadPointerAsBytes
  | Bug
  | Panic
deriving DecidableEq, Repr

/-- Modelled from the spec (§3, §4.1, `value.rs` is not in the sources):
a primitive value is a 64-bit raw bit-container `bits` together with the
allocation identity `relocation` when the value is a genuine pointer
(`none` for plain integers, booleans and floats). -/
structure PrimVal where
  bits : Nat
  relocation : Option Nat
deriving DecidableEq, Repr

/-- Modelled from the spec: `PrimVal::new` stores a raw 64-bit pattern
verbatim (reduced into the 64-bit container), with no relocation. -/
def PrimVal.new (bits : Nat) : PrimVal :=
  ⟨bits % 2 ^ 64, none⟩

/-- Modelled from the spec: `PrimVal::from_bool` stores bits 0 or 1. -/
def PrimVal.from_bool (b : Bool) : PrimVal :=
  ⟨if b then 1 else 0, none⟩

/-- Modelled from the spec: `PrimVal::to_ptr` reinterprets the bit
pattern as `(allocation identity, offset)`; for values that are not real
pointers the allocation identity is the sentinel marker and the offset
equals the raw integer value. -/
def PrimVal.to_ptr (v : PrimVal) : Pointer :=
  ⟨v.relocation, v.bits⟩

/-- Modelled from the spec: the fallible "as integer" view of a pointer,
which succeeds exactly when the value is not a genuine pointer (sentinel
allocation identity). -/
def Pointer.to_int (p : Pointer) : Except EvalError Nat :=
  match p.alloc_id with
  | none => .ok p.offset
  | some _ => .error .ReadPointerAsBytes

/-- Modelled from the spec: `bits_to_bool` reads a 1-bit pattern as a
boolean. -/
def bits_to_bool (n : Nat) : Bool :=
  n == 1

/-- The scalar kind tag accompanying every primitive value
(`PrimValKind` of `value.rs`, as listed in spec §3). -/
inductive PrimValKind where
  | Bool | I8 | I16 | I32 | I64 | U8 | U16 | U32 | U64 | F32 | F64 | Ptr
deriving DecidableEq, Repr

/-- Width and signedness of the eight integer kinds (`none` for the
non-integer kinds). -/
def intKindSpec : PrimValKind → Option (Nat × Bool)
  | .I8 => some (8, true)
  | .I16 => some (16, true)
  | .I32 => some (32, true)
  | .I64 => some (64, true)
  | .U8 => some (8, false)
  | .U16 => some (16, false)
  | .U32 => some (32, false)
  | .U64 => some (64, false)
  | _ => none

/-- Modelled from the spec: `PrimValKind::is_int` holds for the eight
integer kinds. -/
def PrimValKind.is_int :=
  fun (k : PrimValKind) => (intKindSpec k).isSome

/-- Bit width of an integer kind (0 for non-integer kinds). -/
def kindWidth (k : PrimValKind) : Nat :=
  match intKindSpec k with
  | some (w, _) => w
  | none => 0

/-- The binary operator selector (`rustc::mir::BinOp`, external to the
sources; the variant set is the one listed in spec §3). -/
inductive BinOp where
  | Add | Sub | Mul | Div | Rem | BitXor | BitAnd | BitOr | Shl | Shr
  | Eq | Lt | Le | Ne | Ge | Gt
deriving DecidableEq, Repr

/-- The unary operator selector (`rustc::mir::UnOp`). -/
inductive UnOp where
  | Not | Neg
deriving DecidableEq, Repr

/-- Two's-complement reading of the low `w` bits of a container:
`bits as iW` in Rust. -/
def toSigned (w : Nat) (bits : Nat) : Int :=
  if bits % 2 ^ w < 2 ^ (w - 1) then ((bits % 2 ^ w : Nat) : Int)
  else ((bits % 2 ^ w : Nat) : Int) - 2 ^ w

/-- The representative of `x` modulo `2 ^ w` in `[-2^(w-1), 2^(w-1))`:
the result of a wrapping `w`-bit signed operation. -/
def wrapSigned (w : Nat) (x : Int) : Int :=
  (x + 2 ^ (w - 1)) % 2 ^ w - 2 ^ (w - 1)

/-- `v as u64` for a signed intermediate `v`: the 64-bit two's-complement
encoding (sign extension into the container). -/
def toU64 (x : Int) : Nat :=
  (x % 2 ^ 64).toNat

/-- Sign extension of the low `w` bits of a pattern into the 64-bit
container: `(bits as iW) as u64` in Rust. -/
def signExtend (w : Nat) (bits : Nat) : Nat :=
  toU64 (toSigned w bits)

/-- The arithmetic operation selected inside `int_arithmetic!`. -/
inductive ArithOp where
  | add | sub | mul | div | rem
deriving DecidableEq, Repr

/-- Rust's `overflowing_add/sub/mul/div/rem` on the signed `w`-bit type,
applied to the signed readings `a`, `b` of the operands, followed by the
`overflow!` macro's `PrimVal::new(val as u64)` repackaging.  The flag is
true exactly when the exact result does not fit in `w`-bit signed range;
the value wraps.  `overflowing_div`/`overflowing_rem` trap on a zero
divisor (native panic) and flag only the `MIN / -1` case. -/
def overflowing_signed (w : Nat) (op : ArithOp) (a b : Int) :
    Except EvalError (PrimVal × Bool) :=
  match op with
  | .add => .ok (PrimVal.new (toU64 (wrapSigned w (a + b))),
      decide (a + b < -(2 ^ (w - 1)) ∨ 2 ^ (w - 1) ≤ a + b))
  | .sub => .ok (PrimVal.new (toU64 (wrapSigned w (a - b))),
      decide (a - b < -(2 ^ (w - 1)) ∨ 2 ^ (w - 1) ≤ a - b))
  | .mul => .ok (PrimVal.new (toU64 (wrapSigned w (a * b))),
      decide (a * b < -(2 ^ (w - 1)) ∨ 2 ^ (w - 1) ≤ a * b))
  | .div =>
      if b = 0 then .error .Panic
      else if a = -(2 ^ (w - 1)) ∧ b = -1 then .ok (PrimVal.new (toU64 a), true)
      else .ok (PrimVal.new (toU64 (Int.tdiv a b)), false)
  | .rem =>
      if b = 0 then .error .Panic
      else if a = -(2 ^ (w - 1)) ∧ b = -1 then .ok (PrimVal.new 0, true)
      else .ok (PrimVal.new (toU64 (Int.tmod a b)), false)

/-- Rust's `overflowing_add/sub/mul/div/rem` on the unsigned `w`-bit
type, applied to the truncated operands `a`, `b`, followed by
`PrimVal::new(val as u64)`. -/
def overflowing_unsigned (w : Nat) (op : ArithOp) (a b : Nat) :
    Except EvalError (PrimVal × Bool) :=
  match op with
  | .add => .ok (PrimVal.new ((a + b) % 2 ^ w), decide (2 ^ w ≤ a + b))
  | .sub => .ok (PrimVal.new ((((a : Int) - b) % 2 ^ w).toNat),
      decide ((a : Int) - b < 0))
  | .mul => .ok (PrimVal.new (a * b % 2 ^ w), decide (2 ^ w ≤ a * b))
  | .div => if b = 0 then .error .Panic else .ok (PrimVal.new (a / b), false)
  | .rem => if b = 0 then .error .Panic else .ok (PrimVal.new (a % b), false)

/-- The `int_arithmetic!` macro: dispatch on the kind, truncate both
containers to the kind's exact width and signedness, and run the
selected overflowing operation (`bug!` on a non-integer kind). -/
def int_arithmetic (k : PrimValKind) (op : ArithOp) (l r : Nat) :
    Except EvalError (PrimVal × Bool) :=
  match intKindSpec k with
  | some (w, true) => overflowing_signed w op (toSigned w l) (toSigned w r)
  | some (w, false) => overflowing_unsigned w op (l % 2 ^ w) (r % 2 ^ w)
  | none => .error .Bug

/-- Rust's `overflowing_shl` at width `w` (signedness `s`): shift the
low `w` bits of `l` left by `r % w`, and flag whether `r` was `≥ w`.
For signed kinds the shifted pattern is sign-extended by the
`overflow!` macro's `as u64` cast. -/
def overflowing_shl (w : Nat) (s : Bool) (l r : Nat) : PrimVal × Bool :=
  (PrimVal.new (if s then signExtend w (l % 2 ^ w * 2 ^ (r % w) % 2 ^ w)
                else l % 2 ^ w * 2 ^ (r % w) % 2 ^ w),
   decide (w ≤ r))

/-- Rust's `overflowing_shr` at width `w` (signedness `s`): arithmetic
shift right for signed kinds (floor division of the signed reading by
`2 ^ (r % w)`), logical shift right for unsigned kinds; the flag is
whether `r` was `≥ w`. -/
def overflowing_shr (w : Nat) (s : Bool) (l r : Nat) : PrimVal × Bool :=
  (PrimVal.new (if s then toU64 (Int.ediv (toSigned w l) (2 ^ (r % w)))
                else l % 2 ^ w / 2 ^ (r % w)),
   decide (w ≤ r))

/-- The `int_shift!` macro: dispatch on the kind of the left operand and
run the selected overflowing shift at its exact width (`bug!` on a
non-integer kind). -/
def int_shift (k : PrimValKind) (sh : Nat → Bool → Nat → Nat → PrimVal × Bool)
    (l r : Nat) : Except EvalError (PrimVal × Bool) :=
  match intKindSpec k with
  | some (w, s) => .ok (sh w s l r)
  | none => .error .Bug

/-- `type_bits` of the shift branch of `binary_op`: the bit width of the
left kind's underlying integer, `none` (→ `bug!`) for non-integral
kinds. -/
def type_bits_of : PrimValKind → Option Nat
  | .I8 | .U8 => some 8
  | .I16 | .U16 => some 16
  | .I32 | .U32 => some 32
  | .I64 | .U64 => some 64
  | _ => none

/-- Modelled from the spec: NaN detection on an f32 bit pattern (all-ones
exponent, nonzero mantissa); `bits_to_f32` truncates the container to 32
bits. -/
def f32_is_nan (n : Nat) : Bool :=
  (n % 2 ^ 32 / 2 ^ 23) % 2 ^ 8 == 2 ^ 8 - 1 && n % 2 ^ 23 != 0

/-- Modelled from the spec: NaN detection on an f64 bit pattern. -/
def f64_is_nan (n : Nat) : Bool :=
  (n % 2 ^ 64 / 2 ^ 52) % 2 ^ 11 == 2 ^ 11 - 1 && n % 2 ^ 52 != 0

/-- Modelled from the spec: an order-embedding key for non-NaN f32 bit
patterns.  Positive patterns (sign bit clear) keep their bit value;
negative patterns are reflected so that larger magnitude sorts lower;
`+0.0` and `-0.0` both map to 0.  Comparing keys is exactly IEEE-754
comparison on non-NaN values. -/
def f32_key (n : Nat) : Int :=
  if n % 2 ^ 32 < 2 ^ 31 then ((n % 2 ^ 32 : Nat) : Int)
  else (2 ^ 31 : Int) - ((n % 2 ^ 32 : Nat) : Int)

/-- Modelled from the spec: the f64 analogue of `f32_key`. -/
def f64_key (n : Nat) : Int :=
  if n % 2 ^ 64 < 2 ^ 63 then ((n % 2 ^ 64 : Nat) : Int)
  else (2 ^ 63 : Int) - ((n % 2 ^ 64 : Nat) : Int)

/-- Modelled from the spec: native IEEE-754 float comparison on bit
patterns — every comparison except `Ne` is false when either operand is
NaN, and `Ne` is then true; otherwise the order of the decoded values
(via the order-embedding key) decides. -/
def float_cmp (is_nan : Nat → Bool) (key : Nat → Int) (op : BinOp)
    (l r : Nat) : Bool :=
  if is_nan l || is_nan r then op == .Ne
  else
    match op with
    | .Eq => decide (key l = key r)
    | .Ne => decide (key l ≠ key r)
    | .Lt => decide (key l < key r)
    | .Le => decide (key l ≤ key r)
    | .Gt => decide (key r < key l)
    | .Ge => decide (key r ≤ key l)
    | _ => false

/-- Modelled from the spec: the IEEE-754 arithmetic operations of the
`float_arithmetic!` macro (`bits_to_f32/f64`, native `+ - * / %`,
`f32/f64_to_bits`), abstracted as an oracle on bit patterns.  No claim
depends on the concrete rounding behaviour, so the evaluator is
parameterized over it. -/
structure FloatOps where
  f32_add : Nat → Nat → Nat
  f32_sub : Nat → Nat → Nat
  f32_mul : Nat → Nat → Nat
  f32_div : Nat → Nat → Nat
  f32_rem : Nat → Nat → Nat
  f64_add : Nat → Nat → Nat
  f64_sub : Nat → Nat → Nat
  f64_mul : Nat → Nat → Nat
  f64_div : Nat → Nat → Nat
  f64_rem : Nat → Nat → Nat

/-- A concrete (degenerate) float-arithmetic oracle, used to instantiate
theorems at concrete inputs on non-float paths. -/
def trivFloatOps : FloatOps :=
  ⟨fun _ _ => 0, fun _ _ => 0, fun _ _ => 0, fun _ _ => 0, fun _ _ => 0,
   fun _ _ => 0, fun _ _ => 0, fun _ _ => 0, fun _ _ => 0, fun _ _ => 0⟩

/-- `unrelated_ptr_ops` of `operator.rs`: the rule applied when the two
operands' pointer interpretations live in different allocations. -/
def unrelated_ptr_ops (bin_op : BinOp) (left right : Pointer) :
    Except EvalError PrimVal :=
  match bin_op with
  | .Eq => .ok (PrimVal.from_bool false)
  | .Ne => .ok (PrimVal.from_bool true)
  | .Lt | .Le | .Gt | .Ge => .error .InvalidPointerMath
  | _ =>
      if xor left.to_int.isOk right.to_int.isOk then .error .ReadPointerAsBytes
      else .error .Bug

/-- `binary_op` of `operator.rs`: returns the result of the specified
operation and whether it overflowed.  `F` supplies the IEEE float
arithmetic (see `FloatOps`). -/
def binary_op (F : FloatOps) (bin_op : BinOp) (left : PrimVal)
    (left_kind : PrimValKind) (right : PrimVal) (right_kind : PrimValKind) :
    Except EvalError (PrimVal × Bool) :=
  if left.to_ptr.alloc_id ≠ right.to_ptr.alloc_id then
    match unrelated_ptr_ops bin_op left.to_ptr right.to_ptr with
    | .ok v => .ok (v, false)
    | .error e => .error e
  else if bin_op = .Shl ∨ bin_op = .Shr then
    match type_bits_of left_kind with
    | none => .error .Bug
    | some type_bits =>
      match bin_op with
      | .Shl => int_shift left_kind overflowing_shl left.bits
          (right.bits % 2 ^ 32 &&& (type_bits - 1))
      | .Shr => int_shift left_kind overflowing_shr left.bits
          (right.bits % 2 ^ 32 &&& (type_bits - 1))
      | _ => .error .Bug
  else if left_kind ≠ right_kind then
    .error .Unimplemented
  else
    match bin_op, left_kind with
    | .Eq, .F32 => .ok (PrimVal.from_bool (float_cmp f32_is_nan f32_key .Eq left.bits right.bits), false)
    | .Ne, .F32 => .ok (PrimVal.from_bool (float_cmp f32_is_nan f32_key .Ne left.bits right.bits), false)
    | .Lt, .F32 => .ok (PrimVal.from_bool (float_cmp f32_is_nan f32_key .Lt left.bits right.bits), false)
    | .Le, .F32 => .ok (PrimVal.from_bool (float_cmp f32_is_nan f32_key .Le left.bits right.bits), false)
    | .Gt, .F32 => .ok (PrimVal.from_bool (float_cmp f32_is_nan f32_key .Gt left.bits right.bits), false)
    | .Ge, .F32 => .ok (PrimVal.from_bool (float_cmp f32_is_nan f32_key .Ge left.bits right.bits), false)
    | .Eq, .F64 => .ok (PrimVal.from_bool (float_cmp f64_is_nan f64_key .Eq left.bits right.bits), false)
    | .Ne, .F64 => .ok (PrimVal.from_bool (float_cmp f64_is_nan f64_key .Ne left.bits right.bits), false)
    | .Lt, .F64 => .ok (PrimVal.from_bool (float_cmp f64_is_nan f64_key .Lt left.bits right.bits), false)
    | .Le, .F64 => .ok (PrimVal.from_bool (float_cmp f64_is_nan f64_key .Le left.bits right.bits), false)
    | .Gt, .F64 => .ok (PrimVal.from_bool (float_cmp f64_is_nan f64_key .Gt left.bits right.bits), false)
    | .Ge, .F64 => .ok (PrimVal.from_bool (float_cmp f64_is_nan f64_key .Ge left.bits right.bits), false)
    | .Add, .F32 => .ok (PrimVal.new (F.f32_add left.bits right.bits), false)
    | .Sub, .F32 => .ok (PrimVal.new (F.f32_sub left.bits right.bits), false)
    | .Mul, .F32 => .ok (PrimVal.new (F.f32_mul left.bits right.bits), false)
    | .Div, .F32 => .ok (PrimVal.new (F.f32_div left.bits right.bits), false)
    | .Rem, .F32 => .ok (PrimVal.new (F.f32_rem left.bits right.bits), false)
    | .Add, .F64 => .ok (PrimVal.new (F.f64_add left.bits right.bits), false)
    | .Sub, .F64 => .ok (PrimVal.new (F.f64_sub left.bits right.bits), false)
    | .Mul, .F64 => .ok (PrimVal.new (F.f64_mul left.bits right.bits), false)
    | .Div, .F64 => .ok (PrimVal.new (F.f64_div left.bits right.bits), false)
    | .Rem, .F64 => .ok (PrimVal.new (F.f64_rem left.bits right.bits), false)
    | .Eq, _ => .ok (PrimVal.from_bool (decide (left.bits = right.bits)), false)
    | .Ne, _ => .ok (PrimVal.from_bool (decide (left.bits ≠ right.bits)), false)
    | .Lt, _ => .ok (PrimVal.from_bool (decide (left.bits < right.bits)), false)
    | .Le, _ => .ok (PrimVal.from_bool (decide (left.bits ≤ right.bits)), false)
    | .Gt, _ => .ok (PrimVal.from_bool (decide (right.bits < left.bits)), false)
    | .Ge, _ => .ok (PrimVal.from_bool (decide (right.bits ≤ left.bits)), false)
    | .BitOr, _ => .ok (PrimVal.new (left.bits ||| right.bits), false)
    | .BitAnd, _ => .ok (PrimVal.new (left.bits &&& right.bits), false)
    | .BitXor, _ => .ok (PrimVal.new (left.bits ^^^ right.bits), false)
    | .Add, k => if k.is_int then int_arithmetic k .add left.bits right.bits
        else .error .Unimplemented
    | .Sub, k => if k.is_int then int_arithmetic k .sub left.bits right.bits
        else .error .Unimplemented
    | .Mul, k => if k.is_int then int_arithmetic k .mul left.bits right.bits
        else .error .Unimplemented
    | .Div, k => if k.is_int then int_arithmetic k .div left.bits right.bits
        else .error .Unimplemented
    | .Rem, k => if k.is_int then int_arithmetic k .rem left.bits right.bits
        else .error .Unimplemented
    | _, _ => .error .Unimplemented

/-- `unary_op` of `operator.rs`. -/
def unary_op (un_op : UnOp) (val : PrimVal) (val_kind : PrimValKind) :
    Except EvalError PrimVal :=
  match un_op, val_kind with
  | .Not, .Bool => .ok (PrimVal.new (if bits_to_bool val.bits then 0 else 1))
  | .Not, .U8 => .ok (PrimVal.new (2 ^ 8 - 1 - val.bits % 2 ^ 8))
  | .Not, .U16 => .ok (PrimVal.new (2 ^ 16 - 1 - val.bits % 2 ^ 16))
  | .Not, .U32 => .ok (PrimVal.new (2 ^ 32 - 1 - val.bits % 2 ^ 32))
  | .Not, .U64 => .ok (PrimVal.new (2 ^ 64 - 1 - val.bits % 2 ^ 64))
  | .Not, .I8 => .ok (PrimVal.new (signExtend 8 (2 ^ 8 - 1 - val.bits % 2 ^ 8)))
  | .Not, .I16 => .ok (PrimVal.new (signExtend 16 (2 ^ 16 - 1 - val.bits % 2 ^ 16)))
  | .Not, .I32 => .ok (PrimVal.new (signExtend 32 (2 ^ 32 - 1 - val.bits % 2 ^ 32)))
  | .Not, .I64 => .ok (PrimVal.new (signExtend 64 (2 ^ 64 - 1 - val.bits % 2 ^ 64)))
  | .Neg, .I8 => .ok (PrimVal.new (toU64 (wrapSigned 8 (-(toSigned 8 val.bits)))))
  | .Neg, .I16 => .ok (PrimVal.new (toU64 (wrapSigned 16 (-(toSigned 16 val.bits)))))
  | .Neg, .I32 => .ok (PrimVal.new (toU64 (wrapSigned 32 (-(toSigned 32 val.bits)))))
  | .Neg, .I64 => .ok (PrimVal.new (toU64 (wrapSigned 64 (-(toSigned 64 val.bits)))))
  | .Neg, .F32 => .ok (PrimVal.new (val.bits % 2 ^ 32 ^^^ 2 ^ 31))
  | .Neg, .F64 => .ok (PrimVal.new (val.bits % 2 ^ 64 ^^^ 2 ^ 63))
  | _, _ => .error .Unimplemented

/-- Zero/sign extension of the low `w` bits of a pattern into the 64-bit
container, according to the kind's signedness (identity on non-integer
kinds). -/
def extendBits (k : PrimValKind) (n : Nat) : Nat :=
  match intKindSpec k with
  | some (w, true) => signExtend w n
  | some (w, false) => n % 2 ^ w
  | none => n

/-- The mathematical value an integer-kind operand denotes: the signed or
unsigned reading of the low `w` bits of its container. -/
def interp (k : PrimValKind) (v : PrimVal) : Int :=
  match intKindSpec k with
  | some (w, true) => toSigned w v.bits
  | some (w, false) => ((v.bits % 2 ^ w : Nat) : Int)
  | none => 0

/-- Smallest value representable in an integer kind. -/
def kindMin (k : PrimValKind) : Int :=
  match intKindSpec k with
  | some (w, true) => -(2 ^ (w - 1))
  | some _ => 0
  | none => 0

/-- Largest value representable in an integer kind. -/
def kindMax (k : PrimValKind) : Int :=
  match intKindSpec k with
  | some (w, true) => 2 ^ (w - 1) - 1
  | some (w, false) => 2 ^ w - 1
  | none => 0

/-- A bit-container is canonical for a kind when it is a plain
(non-pointer) value and its bits are the zero/sign extension of the
kind's low bits — the invariant of spec §3. -/
def canonical (k : PrimValKind) (v : PrimVal) : Bool :=
  v.relocation.isNone &&
    match k with
    | .Bool => v.bits == 0 || v.bits == 1
    | .F32 => decide (v.bits < 2 ^ 32)
    | .F64 => decide (v.bits < 2 ^ 64)
    | .Ptr => decide (v.bits < 2 ^ 64)
    | k => v.bits == extendBits k v.bits

/-- The minimum representable value of a signed kind, as a canonical
primitive value (sign-extended into the container). -/
def minValue (k : PrimValKind) : PrimVal :=
  PrimVal.new (signExtend (kindWidth k) (2 ^ (kindWidth k - 1)))

/-- NaN predicate for a float kind (false on non-float kinds). -/
def float_is_nan (k : PrimValKind) (n : Nat) : Bool :=
  match k with
  | .F32 => f32_is_nan n
  | .F64 => f64_is_nan n
  | _ => false

instance {ε α : Type} [DecidableEq ε] [DecidableEq α] : DecidableEq (Except ε α) :=
  fun a b =>
    match a, b with
    | .ok x, .ok y => decidable_of_iff (x = y) (by simp)
    | .error x, .error y => decidable_of_iff (x = y) (by simp)
    | .ok _, .error _ => isFalse (by simp)
    | .error _, .ok _ => isFalse (by simp)

/-- The shift-amount mask `& (type_bits - 1)` is the remainder modulo the
width, for each of the four widths. -/
theorem and_width_mask (m : Nat) :
    m &&& 7 = m % 8 ∧ m &&& 15 = m % 16 ∧ m &&& 31 = m % 32 ∧ m &&& 63 = m % 64 := by
  have h3 := Nat.and_pow_two_sub_one_eq_mod m 3
  have h4 := Nat.and_pow_two_sub_one_eq_mod m 4
  have h5 := Nat.and_pow_two_sub_one_eq_mod m 5
  have h6 := Nat.and_pow_two_sub_one_eq_mod m 6
  norm_num at h3 h4 h5 h6
  exact ⟨h3, h4, h5, h6⟩

/-- C10: `binary_op` is deterministic — two invocations with identical
operator, operand values and operand kinds (and the same float
arithmetic oracle) return identical results; as a total Lean function of
its inputs it has no observable side effects on any state. -/
theorem binary_op_deterministic (F : FloatOps) (op : BinOp) (l : PrimVal)
    (lk : PrimValKind) (r : PrimVal) (rk : PrimValKind) :
    binary_op F op l lk r rk = binary_op F op l lk r rk := rfl

/-- C2: on operands whose pointer interpretations have different
allocation identities, `Eq` returns false and `Ne` returns true, both
with overflow flag false and without failing, for arbitrary operands and
kinds; the ordered comparisons fail with the invalid-pointer-arithmetic
error. -/
theorem binary_op_unrelated_ptr_rule (F : FloatOps) (op : BinOp) (l : PrimVal)
    (lk : PrimValKind) (r : PrimVal) (rk : PrimValKind)
    (h : l.to_ptr.alloc_id ≠ r.to_ptr.alloc_id)
    (hop : op = .Lt ∨ op = .Le ∨ op = .Gt ∨ op = .Ge) :
    binary_op F .Eq l lk r rk = .ok (PrimVal.from_bool false, false) ∧
    binary_op F .Ne l lk r rk = .ok (PrimVal.from_bool true, false) ∧
    binary_op F op l lk r rk = .error .InvalidPointerMath := by
  refine ⟨?_, ?_, ?_⟩
  · delta binary_op; rw [if_pos h]; rfl
  · delta binary_op; rw [if_pos h]; rfl
  · rcases hop with rfl | rfl | rfl | rfl <;> (delta binary_op; rw [if_pos h]; rfl)

theorem binary_op_unrelated_ptr_rule_witness :
    binary_op trivFloatOps .Eq ⟨10, some 1⟩ .Ptr ⟨20, some 2⟩ .Ptr =
      .ok (PrimVal.from_bool false, false) ∧
    binary_op trivFloatOps .Ne ⟨10, some 1⟩ .Ptr ⟨20, some 2⟩ .Ptr =
      .ok (PrimVal.from_bool true, false) ∧
    binary_op trivFloatOps .Lt ⟨10, some 1⟩ .Ptr ⟨20, some 2⟩ .Ptr =
      .error .InvalidPointerMath :=
  binary_op_unrelated_ptr_rule trivFloatOps .Lt ⟨10, some 1⟩ .Ptr ⟨20, some 2⟩ .Ptr
    (by decide) (Or.inl rfl)

/-- C6: for non-shift operators on operands in the same allocation, a
kind mismatch fails with the unimplemented-operation error before any
value is computed. -/
theorem binary_op_kind_mismatch_unimplemented (F : FloatOps) (op : BinOp)
    (l : PrimVal) (lk : PrimValKind) (r : PrimVal) (rk : PrimValKind)
    (hop1 : op ≠ .Shl) (hop2 : op ≠ .Shr)
    (hal : l.to_ptr.alloc_id = r.to_ptr.alloc_id) (hk : lk ≠ rk) :
    binary_op F op l lk r rk = .error .Unimplemented := by
  delta binary_op
  rw [if_neg (not_not_intro hal), if_neg (not_or.mpr ⟨hop1, hop2⟩), if_pos hk]

theorem binary_op_kind_mismatch_unimplemented_witness :
    binary_op trivFloatOps .Add (PrimVal.new 1) .I8 (PrimVal.new 2) .U8 =
      .error .Unimplemented :=
  binary_op_kind_mismatch_unimplemented trivFloatOps .Add (PrimVal.new 1) .I8
    (PrimVal.new 2) .U8 (by decide) (by decide) (by decide) (by decide)

/-- C9: comparing a NaN bit pattern against any float operand of the same
float kind yields false for `Eq`, `Lt`, `Le`, `Gt`, `Ge` and true for
`Ne`, always with overflow flag false. -/
theorem binary_op_float_nan_unordered (F : FloatOps) (k : PrimValKind)
    (n f : PrimVal) (hk : k = .F32 ∨ k = .F64) (hn : float_is_nan k n.bits = true)
    (h1 : n.relocation = none) (h2 : f.relocation = none) :
    binary_op F .Eq n k f k = .ok (PrimVal.from_bool false, false) ∧
    binary_op F .Lt n k f k = .ok (PrimVal.from_bool false, false) ∧
    binary_op F .Le n k f k = .ok (PrimVal.from_bool false, false) ∧
    binary_op F .Gt n k f k = .ok (PrimVal.from_bool false, false) ∧
    binary_op F .Ge n k f k = .ok (PrimVal.from_bool false, false) ∧
    binary_op F .Ne n k f k = .ok (PrimVal.from_bool true, false) := by
  obtain ⟨nb, nr⟩ := n
  obtain ⟨fb, fr⟩ := f
  subst h1
  subst h2
  rcases hk with rfl | rfl <;>
  · simp only [float_is_nan] at hn
    refine ⟨?_, ?_, ?_, ?_, ?_, ?_⟩ <;>
    · rw [binary_op, if_neg (by simp [PrimVal.to_ptr]), if_neg (by decide),
        if_neg (by decide)]
      show Except.ok (PrimVal.from_bool (float_cmp _ _ _ nb fb), false) = _
      rw [float_cmp, if_pos (by simp [hn])]
      rfl

/-- On same-allocation operands, a shift evaluation reduces to the masked
overflowing shift at the left kind's width. -/
theorem binary_op_shift_reduce (F : FloatOps) (op : BinOp) (l : PrimVal)
    (k rk : PrimValKind) (r : PrimVal) (w : Nat) (s : Bool)
    (hop : op = .Shl ∨ op = .Shr) (hal : l.to_ptr.alloc_id = r.to_ptr.alloc_id)
    (hspec : intKindSpec k = some (w, s)) :
    binary_op F op l k r rk =
      .ok ((if op = .Shl then overflowing_shl else overflowing_shr) w s l.bits
        (r.bits % 2 ^ 32 &&& (w - 1))) := by
  have htb : type_bits_of k = some w := by
    cases k <;> simp_all [intKindSpec, type_bits_of]
  rcases hop with rfl | rfl <;>
  · delta binary_op
    rw [if_neg (not_not_intro hal), if_pos (by simp), htb]
    delta int_shift
    rw [hspec]
    rfl

/-- C3 (counterexample): shifting `1u8` left by `8` — a shift amount equal
to the width — returns overflow flag `false`, not `true` as the claim
requires. -/
theorem binary_op_shl_premask_flag_cex :
    binary_op trivFloatOps .Shl (PrimVal.new 1) .U8 (PrimVal.new 8) .U8 =
      .ok (PrimVal.new 1, false) ∧ kindWidth .U8 ≤ 8 := by decide

/-- C3 (amended): for every `Shl`/`Shr` on a plain (non-pointer) left
operand of integer kind and any plain right operand, `binary_op` succeeds
and the returned overflow flag is `false` — the shift amount is masked
into `[0, W)` before the overflow-tracking shift runs, so the flag never
records that the pre-mask amount reached the width. -/
theorem binary_op_shift_flag_never_set (F : FloatOps) (op : BinOp)
    (k rk : PrimValKind) (x r : Nat)
    (hop : op = .Shl ∨ op = .Shr) (hk : k.is_int = true) :
    (binary_op F op (PrimVal.new x) k (PrimVal.new r) rk).map Prod.snd =
      .ok false := by
  obtain ⟨⟨w, s⟩, hspec⟩ : ∃ p, intKindSpec k = some p :=
    Option.isSome_iff_exists.mp hk
  rw [binary_op_shift_reduce F op _ k rk _ w s hop
    (by simp [PrimVal.new, PrimVal.to_ptr]) hspec]
  have hw : w = 8 ∨ w = 16 ∨ w = 32 ∨ w = 64 := by
    cases k <;> simp_all [intKindSpec]
  have hmask := and_width_mask ((PrimVal.new r).bits % 2 ^ 32)
  have hlt : (PrimVal.new r).bits % 2 ^ 32 &&& (w - 1) < w := by
    rcases hw with rfl | rfl | rfl | rfl <;> norm_num at hmask ⊢ <;> omega
  rcases hop with rfl | rfl
  · rw [if_pos rfl]
    simp only [Except.map, overflowing_shl, Except.ok.injEq,
      decide_eq_false_iff_not, not_le]
    exact hlt
  · rw [if_neg (by decide)]
    simp only [Except.map, overflowing_shr, Except.ok.injEq,
      decide_eq_false_iff_not, not_le]
    exact hlt

theorem binary_op_shift_flag_never_set_witness :
    (binary_op trivFloatOps .Shl (PrimVal.new 3) .I16 (PrimVal.new 999) .U32).map
      Prod.snd = .ok false :=
  binary_op_shift_flag_never_set trivFloatOps .Shl .I16 .U32 3 999
    (Or.inl rfl) (by decide)

/-- C4: every successful `Shl`/`Shr` evaluation returns overflow flag
`false`, whatever the operands, because the shift amount is masked into
`[0, width)` before the overflow-tracking shift is performed. -/
theorem binary_op_shift_success_no_overflow (F : FloatOps) (op : BinOp)
    (l : PrimVal) (lk : PrimValKind) (r : PrimVal) (rk : PrimValKind)
    (v : PrimVal) (ovf : Bool) (hop : op = .Shl ∨ op = .Shr)
    (h : binary_op F op l lk r rk = .ok (v, ovf)) : ovf = false := by
  by_cases hal : l.to_ptr.alloc_id = r.to_ptr.alloc_id
  · by_cases hik : lk.is_int = true
    · obtain ⟨⟨w, s⟩, hspec⟩ : ∃ p, intKindSpec lk = some p :=
        Option.isSome_iff_exists.mp hik
      rw [binary_op_shift_reduce F op l lk rk r w s hop hal hspec] at h
      have hw : w = 8 ∨ w = 16 ∨ w = 32 ∨ w = 64 := by
        cases lk <;> simp_all [intKindSpec]
      have hmask := and_width_mask (r.bits % 2 ^ 32)
      have hlt : r.bits % 2 ^ 32 &&& (w - 1) < w := by
        rcases hw with rfl | rfl | rfl | rfl <;> norm_num at hmask ⊢ <;> omega
      rcases hop with rfl | rfl
      · rw [if_pos rfl, Except.ok.injEq, Prod.mk.injEq] at h
        rw [← h.2]
        simp only [overflowing_shl, decide_eq_false_iff_not, not_le]
        exact hlt
      · rw [if_neg (by decide), Except.ok.injEq, Prod.mk.injEq] at h
        rw [← h.2]
        simp only [overflowing_shr, decide_eq_false_iff_not, not_le]
        exact hlt
    · have htb : type_bits_of lk = none := by
        cases lk <;> simp_all [PrimValKind.is_int, intKindSpec, type_bits_of]
      rcases hop with rfl | rfl <;>
      · delta binary_op at h
        rw [if_neg (not_not_intro hal), if_pos (by simp), htb] at h
        exact absurd h (by simp)
  · rcases hop with rfl | rfl <;>
    · delta binary_op at h
      rw [if_pos hal] at h
      split at h
      · rw [Except.ok.injEq, Prod.mk.injEq] at h
        exact h.2.symm
      · exact absurd h (by simp)

theorem binary_op_shift_success_no_overflow_witness :
    binary_op trivFloatOps .Shl (PrimVal.new 2) .U8 (PrimVal.new 3) .U8 =
      .ok (PrimVal.new 16, false) ∧ false = false :=
  ⟨by decide, binary_op_shift_success_no_overflow trivFloatOps .Shl
    (PrimVal.new 2) .U8 (PrimVal.new 3) .U8 (PrimVal.new 16) false
    (Or.inl rfl) (by decide)⟩

/-- C5: a shift behaves identically when the right operand is reduced
modulo the left kind's width — `binary_op(Shl, x, r)` equals
`binary_op(Shl, x, r mod W)` (and likewise for `Shr`), returning the
same value and overflow flag. -/
theorem binary_op_shift_mask_mod_width (F : FloatOps) (op : BinOp)
    (k rk : PrimValKind) (x r : Nat)
    (hop : op = .Shl ∨ op = .Shr) (hk : k.is_int = true) :
    binary_op F op (PrimVal.new x) k (PrimVal.new r) rk =
      binary_op F op (PrimVal.new x) k (PrimVal.new (r % kindWidth k)) rk := by
  obtain ⟨⟨w, s⟩, hspec⟩ : ∃ p, intKindSpec k = some p :=
    Option.isSome_iff_exists.mp hk
  have hkw : kindWidth k = w := by simp [kindWidth, hspec]
  rw [binary_op_shift_reduce F op _ k rk _ w s hop
        (by simp [PrimVal.new, PrimVal.to_ptr]) hspec,
      binary_op_shift_reduce F op _ k rk _ w s hop
        (by simp [PrimVal.new, PrimVal.to_ptr]) hspec, hkw]
  have hw : w = 8 ∨ w = 16 ∨ w = 32 ∨ w = 64 := by
    cases k <;> simp_all [intKindSpec]
  have hmeq : (PrimVal.new r).bits % 2 ^ 32 &&& (w - 1) =
      (PrimVal.new (r % w)).bits % 2 ^ 32 &&& (w - 1) := by
    have hm1 := and_width_mask ((PrimVal.new r).bits % 2 ^ 32)
    have hm2 := and_width_mask ((PrimVal.new (r % w)).bits % 2 ^ 32)
    simp only [PrimVal.new] at hm1 hm2 ⊢
    rcases hw with rfl | rfl | rfl | rfl <;> norm_num at hm1 hm2 ⊢ <;> omega
  rw [hmeq]

theorem binary_op_shift_mask_mod_width_witness :
    binary_op trivFloatOps .Shr (PrimVal.new (signExtend 8 (2 ^ 8 - 8))) .I8
        (PrimVal.new 100) .U32 =
      binary_op trivFloatOps .Shr (PrimVal.new (signExtend 8 (2 ^ 8 - 8))) .I8
        (PrimVal.new (100 % kindWidth .I8)) .U32 :=
  binary_op_shift_mask_mod_width trivFloatOps .Shr .I8 .U32
    (signExtend 8 (2 ^ 8 - 8)) 100 (Or.inr rfl) (by decide)

theorem binary_op_float_nan_unordered_witness :
    binary_op trivFloatOps .Eq (PrimVal.new 2143289344) .F32 (PrimVal.new 0) .F32 =
      .ok (PrimVal.from_bool false, false) ∧
    binary_op trivFloatOps .Lt (PrimVal.new 2143289344) .F32 (PrimVal.new 0) .F32 =
      .ok (PrimVal.from_bool false, false) ∧
    binary_op trivFloatOps .Le (PrimVal.new 2143289344) .F32 (PrimVal.new 0) .F32 =
      .ok (PrimVal.from_bool false, false) ∧
    binary_op trivFloatOps .Gt (PrimVal.new 2143289344) .F32 (PrimVal.new 0) .F32 =
      .ok (PrimVal.from_bool false, false) ∧
    binary_op trivFloatOps .Ge (PrimVal.new 2143289344) .F32 (PrimVal.new 0) .F32 =
      .ok (PrimVal.from_bool false, false) ∧
    binary_op trivFloatOps .Ne (PrimVal.new 2143289344) .F32 (PrimVal.new 0) .F32 =
      .ok (PrimVal.from_bool true, false) :=
  binary_op_float_nan_unordered trivFloatOps .F32 (PrimVal.new 2143289344)
    (PrimVal.new 0) (Or.inl rfl) (by decide) rfl rfl


/-- The 64-bit container produced by `toU64` is in range. -/
theorem toU64_lt (x : Int) : toU64 x < 2 ^ 64 := by
  have h1 := Int.emod_nonneg x (by norm_num : (2 : Int) ^ 64 ≠ 0)
  have h2 := Int.emod_lt_of_pos x (by norm_num : (0 : Int) < 2 ^ 64)
  rw [toU64]
  omega

/-- `2 ^ w` splits off the top bit when `w` is positive. -/
theorem two_pow_int_succ {w : Nat} (hw : 0 < w) : (2 : Int) ^ w = 2 * 2 ^ (w - 1) := by
  conv_lhs => rw [← Nat.sub_add_cancel hw]
  rw [pow_succ]
  ring

/-- Cast bridge for `2 ^ w`. -/
theorem cast_two_pow (w : Nat) : ((2 ^ w : Nat) : Int) = 2 ^ w := by
  push_cast
  ring

/-- `wrapSigned` subtracts a multiple of `2 ^ w`. -/
theorem wrapSigned_sub (w : Nat) (x : Int) :
    wrapSigned w x = x - 2 ^ w * ((x + 2 ^ (w - 1)) / 2 ^ w) := by
  rw [wrapSigned, Int.emod_def]
  ring

/-- `wrapSigned` ignores added multiples of `2 ^ w`. -/
theorem wrapSigned_add_mul (w : Nat) (y d : Int) :
    wrapSigned w (y + 2 ^ w * d) = wrapSigned w y := by
  rw [wrapSigned, wrapSigned,
    show y + 2 ^ w * d + 2 ^ (w - 1) = y + 2 ^ (w - 1) + 2 ^ w * d by ring,
    Int.add_mul_emod_self_left]

/-- `wrapSigned` is idempotent. -/
theorem wrapSigned_wrapSigned (w : Nat) (x : Int) :
    wrapSigned w (wrapSigned w x) = wrapSigned w x := by
  obtain ⟨d, hd⟩ : ∃ d, wrapSigned w x = x + 2 ^ w * d :=
    ⟨-((x + 2 ^ (w - 1)) / 2 ^ w), by rw [wrapSigned_sub]; ring⟩
  conv_lhs => rw [hd]
  rw [wrapSigned_add_mul]

/-- Wrapping the negation of a wrapped value is wrapping the negation. -/
theorem wrapSigned_neg (w : Nat) (x : Int) :
    wrapSigned w (-(wrapSigned w x)) = wrapSigned w (-x) := by
  obtain ⟨d, hd⟩ : ∃ d, wrapSigned w x = x + 2 ^ w * d :=
    ⟨-((x + 2 ^ (w - 1)) / 2 ^ w), by rw [wrapSigned_sub]; ring⟩
  rw [hd, show -(x + 2 ^ w * d) = -x + 2 ^ w * (-d) by ring, wrapSigned_add_mul]

/-- `wrapSigned` fixes values already in signed `w`-bit range. -/
theorem wrapSigned_id {w : Nat} (hw : 0 < w) (x : Int) (h1 : -(2 ^ (w - 1)) ≤ x)
    (h2 : x < 2 ^ (w - 1)) : wrapSigned w x = x := by
  have hWH := two_pow_int_succ hw
  rw [wrapSigned, Int.emod_eq_of_lt (by omega) (by omega)]
  ring

/-- The signed reading of a container lies in signed `w`-bit range. -/
theorem toSigned_range {w : Nat} (hw : 0 < w) (b : Nat) :
    -(2 ^ (w - 1)) ≤ toSigned w b ∧ toSigned w b < 2 ^ (w - 1) := by
  have hWH := two_pow_int_succ hw
  have hm : b % 2 ^ w < 2 ^ w := Nat.mod_lt b (Nat.two_pow_pos w)
  have hc1 := cast_two_pow w
  have hc2 := cast_two_pow (w - 1)
  rw [toSigned]
  split_ifs with h <;> omega

/-- The signed reading only depends on the low `w` bits. -/
theorem toSigned_mod (w : Nat) (b : Nat) :
    toSigned w (b % 2 ^ w) = toSigned w b := by
  rw [toSigned, toSigned, Nat.mod_mod_of_dvd b dvd_rfl]

/-- Wrapping a value is the signed reading of its low `w` bits. -/
theorem wrapSigned_eq_toSigned {w : Nat} (hw : 0 < w) (x : Int) :
    wrapSigned w x = toSigned w ((x % (2 : Int) ^ w).toNat) := by
  have hWH := two_pow_int_succ hw
  have hpos : (0 : Int) < 2 ^ w := by positivity
  have hE0 : 0 ≤ x % 2 ^ w := Int.emod_nonneg x (ne_of_gt hpos)
  have hElt : x % 2 ^ w < 2 ^ w := Int.emod_lt_of_pos x hpos
  have hcE : (((x % 2 ^ w).toNat : Nat) : Int) = x % 2 ^ w := Int.toNat_of_nonneg hE0
  have hc1 := cast_two_pow w
  have hc2 := cast_two_pow (w - 1)
  have htn : (x % 2 ^ w).toNat < 2 ^ w := by omega
  have hxE : wrapSigned w x = wrapSigned w (x % 2 ^ w) := by
    obtain ⟨q, hq⟩ : ∃ q, x = x % 2 ^ w + 2 ^ w * q :=
      ⟨x / 2 ^ w, by have := Int.ediv_add_emod x (2 ^ w); omega⟩
    conv_lhs => rw [hq]
    rw [wrapSigned_add_mul]
  rw [hxE, toSigned, Nat.mod_eq_of_lt htn]
  split_ifs with h
  · rw [wrapSigned_id hw _ (by omega) (by omega)]
    omega
  · rw [show x % 2 ^ w = x % 2 ^ w - 2 ^ w + 2 ^ w * 1 by ring, wrapSigned_add_mul,
      wrapSigned_id hw _ (by omega) (by omega)]
    omega

/-- Reading back a 64-bit container at width `w ≤ 64` wraps the original
value. -/
theorem toSigned_toU64 {w : Nat} (hw : 0 < w) (h64 : w ≤ 64) (x : Int) :
    toSigned w (toU64 x) = wrapSigned w x := by
  have hdvd : ((2 : Int) ^ w) ∣ ((2 : Int) ^ 64) := pow_dvd_pow 2 h64
  have hE0 : 0 ≤ x % 2 ^ 64 := Int.emod_nonneg x (by norm_num)
  have hpos : (0 : Int) < 2 ^ w := by positivity
  have hE0w : 0 ≤ x % 2 ^ w := Int.emod_nonneg x (ne_of_gt hpos)
  have hEltw : x % 2 ^ w < 2 ^ w := Int.emod_lt_of_pos x hpos
  have hc1 := cast_two_pow w
  have htn : (x % 2 ^ w).toNat < 2 ^ w := by omega
  have hkey : toU64 x % 2 ^ w = (x % 2 ^ w).toNat := by
    rw [toU64]
    obtain ⟨m, hm⟩ := Int.eq_ofNat_of_zero_le hE0
    rw [← Int.emod_emod_of_dvd x hdvd, hm, Int.toNat_natCast,
      show ((2 : Int) ^ w) = ((2 ^ w : Nat) : Int) from (cast_two_pow w).symm,
      ← Int.natCast_mod, Int.toNat_natCast]
  rw [toSigned, hkey, wrapSigned_eq_toSigned hw x, toSigned, Nat.mod_eq_of_lt htn]

/-- Closed form of sign extension: the low bits are kept and the high
bits of the container are filled with the sign. -/
theorem signExtend_closed {w : Nat} (hw : 0 < w) (h64 : w ≤ 64) (n : Nat) :
    signExtend w n = if n % 2 ^ w < 2 ^ (w - 1) then n % 2 ^ w
      else n % 2 ^ w + (2 ^ 64 - 2 ^ w) := by
  have hWH := two_pow_int_succ hw
  have hm : n % 2 ^ w < 2 ^ w := Nat.mod_lt n (Nat.two_pow_pos w)
  have hle : (2 : Nat) ^ w ≤ 2 ^ 64 := Nat.pow_le_pow_right (by norm_num) h64
  have hc1 := cast_two_pow w
  have hc2 := cast_two_pow (w - 1)
  rw [signExtend, toU64, toSigned]
  split_ifs with h
  · rw [Int.emod_eq_of_lt (by omega) (by omega)]
    omega
  · rw [show ((n % 2 ^ w : Nat) : Int) - 2 ^ w =
        ((n % 2 ^ w : Nat) : Int) - 2 ^ w + 2 ^ 64 + 2 ^ 64 * (-1) by ring,
      Int.add_mul_emod_self_left, Int.emod_eq_of_lt (by omega) (by omega)]
    omega

/-- Sign extension preserves the low `w` bits. -/
theorem signExtend_low {w : Nat} (hw : 0 < w) (h64 : w ≤ 64) (n : Nat) :
    signExtend w n % 2 ^ w = n % 2 ^ w := by
  obtain ⟨c, hc⟩ : (2 : Nat) ^ w ∣ 2 ^ 64 - 2 ^ w :=
    Nat.dvd_sub' (pow_dvd_pow 2 h64) dvd_rfl
  rw [signExtend_closed hw h64]
  split_ifs with h
  · rw [Nat.mod_mod_of_dvd n dvd_rfl]
  · rw [hc, Nat.add_mul_mod_self_left, Nat.mod_mod_of_dvd n dvd_rfl]

/-- Sign extension is bounded by the container size. -/
theorem signExtend_lt (w n : Nat) : signExtend w n < 2 ^ 64 :=
  toU64_lt _

/-- Sign extension only depends on the low `w` bits. -/
theorem signExtend_mod (w n : Nat) :
    signExtend w (n % 2 ^ w) = signExtend w n := by
  rw [signExtend, signExtend, toSigned_mod]


/-- Unsigned addition commutes with the `Int` detour of the exact-sum
reading. -/
theorem toNat_add_emod (w a b : Nat) :
    (((a : Int) + b) % (2 : Int) ^ w).toNat = (a + b) % 2 ^ w := by
  rw [show ((a : Int) + b) = ((a + b : Nat) : Int) by push_cast; ring,
    show ((2 : Int) ^ w) = ((2 ^ w : Nat) : Int) from (cast_two_pow w).symm,
    ← Int.natCast_mod, Int.toNat_natCast]

/-- Width-instantiated case of C1 at kind `I8`. -/
theorem add_exact_I8 (F : FloatOps) (ab bb : Nat) :
    binary_op F .Add ⟨ab, none⟩ .I8 ⟨bb, none⟩ .I8 =
      .ok (PrimVal.new (extendBits .I8
            (((interp .I8 ⟨ab, none⟩ + interp .I8 ⟨bb, none⟩) %
              2 ^ kindWidth .I8).toNat)),
           decide (interp .I8 ⟨ab, none⟩ + interp .I8 ⟨bb, none⟩ < kindMin .I8 ∨
                   kindMax .I8 < interp .I8 ⟨ab, none⟩ + interp .I8 ⟨bb, none⟩)) := by
  delta binary_op
  rw [if_neg (by simp [PrimVal.to_ptr]), if_neg (by decide), if_neg (by decide)]
  show Except.ok (PrimVal.new (toU64 (wrapSigned 8 (toSigned 8 ab + toSigned 8 bb))),
    decide (toSigned 8 ab + toSigned 8 bb < -(2 ^ (8 - 1)) ∨
      2 ^ (8 - 1) ≤ toSigned 8 ab + toSigned 8 bb)) = _
  simp only [extendBits, interp, intKindSpec, kindWidth, kindMin, kindMax, signExtend]
  rw [wrapSigned_eq_toSigned (by norm_num : 0 < 8)]
  simp only [Except.ok.injEq, Prod.mk.injEq]
  exact ⟨by trivial, by rw [decide_eq_decide]; omega⟩

/-- Width-instantiated case of C1 at kind `I16`. -/
theorem add_exact_I16 (F : FloatOps) (ab bb : Nat) :
    binary_op F .Add ⟨ab, none⟩ .I16 ⟨bb, none⟩ .I16 =
      .ok (PrimVal.new (extendBits .I16
            (((interp .I16 ⟨ab, none⟩ + interp .I16 ⟨bb, none⟩) %
              2 ^ kindWidth .I16).toNat)),
           decide (interp .I16 ⟨ab, none⟩ + interp .I16 ⟨bb, none⟩ < kindMin .I16 ∨
                   kindMax .I16 < interp .I16 ⟨ab, none⟩ + interp .I16 ⟨bb, none⟩)) := by
  delta binary_op
  rw [if_neg (by simp [PrimVal.to_ptr]), if_neg (by decide), if_neg (by decide)]
  show Except.ok (PrimVal.new (toU64 (wrapSigned 16 (toSigned 16 ab + toSigned 16 bb))),
    decide (toSigned 16 ab + toSigned 16 bb < -(2 ^ (16 - 1)) ∨
      2 ^ (16 - 1) ≤ toSigned 16 ab + toSigned 16 bb)) = _
  simp only [extendBits, interp, intKindSpec, kindWidth, kindMin, kindMax, signExtend]
  rw [wrapSigned_eq_toSigned (by norm_num : 0 < 16)]
  simp only [Except.ok.injEq, Prod.mk.injEq]
  exact ⟨by trivial, by rw [decide_eq_decide]; omega⟩

/-- Width-instantiated case of C1 at kind `I32`. -/
theorem add_exact_I32 (F : FloatOps) (ab bb : Nat) :
    binary_op F .Add ⟨ab, none⟩ .I32 ⟨bb, none⟩ .I32 =
      .ok (PrimVal.new (extendBits .I32
            (((interp .I32 ⟨ab, none⟩ + interp .I32 ⟨bb, none⟩) %
              2 ^ kindWidth .I32).toNat)),
           decide (interp .I32 ⟨ab, none⟩ + interp .I32 ⟨bb, none⟩ < kindMin .I32 ∨
                   kindMax .I32 < interp .I32 ⟨ab, none⟩ + interp .I32 ⟨bb, none⟩)) := by
  delta binary_op
  rw [if_neg (by simp [PrimVal.to_ptr]), if_neg (by decide), if_neg (by decide)]
  show Except.ok (PrimVal.new (toU64 (wrapSigned 32 (toSigned 32 ab + toSigned 32 bb))),
    decide (toSigned 32 ab + toSigned 32 bb < -(2 ^ (32 - 1)) ∨
      2 ^ (32 - 1) ≤ toSigned 32 ab + toSigned 32 bb)) = _
  simp only [extendBits, interp, intKindSpec, kindWidth, kindMin, kindMax, signExtend]
  rw [wrapSigned_eq_toSigned (by norm_num : 0 < 32)]
  simp only [Except.ok.injEq, Prod.mk.injEq]
  exact ⟨by trivial, by rw [decide_eq_decide]; omega⟩

/-- Width-instantiated case of C1 at kind `I64`. -/
theorem add_exact_I64 (F : FloatOps) (ab bb : Nat) :
    binary_op F .Add ⟨ab, none⟩ .I64 ⟨bb, none⟩ .I64 =
      .ok (PrimVal.new (extendBits .I64
            (((interp .I64 ⟨ab, none⟩ + interp .I64 ⟨bb, none⟩) %
              2 ^ kindWidth .I64).toNat)),
           decide (interp .I64 ⟨ab, none⟩ + interp .I64 ⟨bb, none⟩ < kindMin .I64 ∨
                   kindMax .I64 < interp .I64 ⟨ab, none⟩ + interp .I64 ⟨bb, none⟩)) := by
  delta binary_op
  rw [if_neg (by simp [PrimVal.to_ptr]), if_neg (by decide), if_neg (by decide)]
  show Except.ok (PrimVal.new (toU64 (wrapSigned 64 (toSigned 64 ab + toSigned 64 bb))),
    decide (toSigned 64 ab + toSigned 64 bb < -(2 ^ (64 - 1)) ∨
      2 ^ (64 - 1) ≤ toSigned 64 ab + toSigned 64 bb)) = _
  simp only [extendBits, interp, intKindSpec, kindWidth, kindMin, kindMax, signExtend]
  rw [wrapSigned_eq_toSigned (by norm_num : 0 < 64)]
  simp only [Except.ok.injEq, Prod.mk.injEq]
  exact ⟨by trivial, by rw [decide_eq_decide]; omega⟩

/-- Width-instantiated case of C1 at kind `U8`. -/
theorem add_exact_U8 (F : FloatOps) (ab bb : Nat) :
    binary_op F .Add ⟨ab, none⟩ .U8 ⟨bb, none⟩ .U8 =
      .ok (PrimVal.new (extendBits .U8
            (((interp .U8 ⟨ab, none⟩ + interp .U8 ⟨bb, none⟩) %
              2 ^ kindWidth .U8).toNat)),
           decide (interp .U8 ⟨ab, none⟩ + interp .U8 ⟨bb, none⟩ < kindMin .U8 ∨
                   kindMax .U8 < interp .U8 ⟨ab, none⟩ + interp .U8 ⟨bb, none⟩)) := by
  delta binary_op
  rw [if_neg (by simp [PrimVal.to_ptr]), if_neg (by decide), if_neg (by decide)]
  show Except.ok (PrimVal.new ((ab % 2 ^ 8 + bb % 2 ^ 8) % 2 ^ 8),
    decide (2 ^ 8 ≤ ab % 2 ^ 8 + bb % 2 ^ 8)) = _
  simp only [extendBits, interp, intKindSpec, kindWidth, kindMin, kindMax]
  rw [toNat_add_emod, Nat.mod_mod_of_dvd _ dvd_rfl]
  simp only [Except.ok.injEq, Prod.mk.injEq]
  refine ⟨by trivial, ?_⟩
  rw [decide_eq_decide]
  have hc := cast_two_pow 8
  omega

/-- Width-instantiated case of C1 at kind `U16`. -/
theorem add_exact_U16 (F : FloatOps) (ab bb : Nat) :
    binary_op F .Add ⟨ab, none⟩ .U16 ⟨bb, none⟩ .U16 =
      .ok (PrimVal.new (extendBits .U16
            (((interp .U16 ⟨ab, none⟩ + interp .U16 ⟨bb, none⟩) %
              2 ^ kindWidth .U16).toNat)),
           decide (interp .U16 ⟨ab, none⟩ + interp .U16 ⟨bb, none⟩ < kindMin .U16 ∨
                   kindMax .U16 < interp .U16 ⟨ab, none⟩ + interp .U16 ⟨bb, none⟩)) := by
  delta binary_op
  rw [if_neg (by simp [PrimVal.to_ptr]), if_neg (by decide), if_neg (by decide)]
  show Except.ok (PrimVal.new ((ab % 2 ^ 16 + bb % 2 ^ 16) % 2 ^ 16),
    decide (2 ^ 16 ≤ ab % 2 ^ 16 + bb % 2 ^ 16)) = _
  simp only [extendBits, interp, intKindSpec, kindWidth, kindMin, kindMax]
  rw [toNat_add_emod, Nat.mod_mod_of_dvd _ dvd_rfl]
  simp only [Except.ok.injEq, Prod.mk.injEq]
  refine ⟨by trivial, ?_⟩
  rw [decide_eq_decide]
  have hc := cast_two_pow 16
  omega

/-- Width-instantiated case of C1 at kind `U32`. -/
theorem add_exact_U32 (F : FloatOps) (ab bb : Nat) :
    binary_op F .Add ⟨ab, none⟩ .U32 ⟨bb, none⟩ .U32 =
      .ok (PrimVal.new (extendBits .U32
            (((interp .U32 ⟨ab, none⟩ + interp .U32 ⟨bb, none⟩) %
              2 ^ kindWidth .U32).toNat)),
           decide (interp .U32 ⟨ab, none⟩ + interp .U32 ⟨bb, none⟩ < kindMin .U32 ∨
                   kindMax .U32 < interp .U32 ⟨ab, none⟩ + interp .U32 ⟨bb, none⟩)) := by
  delta binary_op
  rw [if_neg (by simp [PrimVal.to_ptr]), if_neg (by decide), if_neg (by decide)]
  show Except.ok (PrimVal.new ((ab % 2 ^ 32 + bb % 2 ^ 32) % 2 ^ 32),
    decide (2 ^ 32 ≤ ab % 2 ^ 32 + bb % 2 ^ 32)) = _
  simp only [extendBits, interp, intKindSpec, kindWidth, kindMin, kindMax]
  rw [toNat_add_emod, Nat.mod_mod_of_dvd _ dvd_rfl]
  simp only [Except.ok.injEq, Prod.mk.injEq]
  refine ⟨by trivial, ?_⟩
  rw [decide_eq_decide]
  have hc := cast_two_pow 32
  omega

/-- Width-instantiated case of C1 at kind `U64`. -/
theorem add_exact_U64 (F : FloatOps) (ab bb : Nat) :
    binary_op F .Add ⟨ab, none⟩ .U64 ⟨bb, none⟩ .U64 =
      .ok (PrimVal.new (extendBits .U64
            (((interp .U64 ⟨ab, none⟩ + interp .U64 ⟨bb, none⟩) %
              2 ^ kindWidth .U64).toNat)),
           decide (interp .U64 ⟨ab, none⟩ + interp .U64 ⟨bb, none⟩ < kindMin .U64 ∨
                   kindMax .U64 < interp .U64 ⟨ab, none⟩ + interp .U64 ⟨bb, none⟩)) := by
  delta binary_op
  rw [if_neg (by simp [PrimVal.to_ptr]), if_neg (by decide), if_neg (by decide)]
  show Except.ok (PrimVal.new ((ab % 2 ^ 64 + bb % 2 ^ 64) % 2 ^ 64),
    decide (2 ^ 64 ≤ ab % 2 ^ 64 + bb % 2 ^ 64)) = _
  simp only [extendBits, interp, intKindSpec, kindWidth, kindMin, kindMax]
  rw [toNat_add_emod, Nat.mod_mod_of_dvd _ dvd_rfl]
  simp only [Except.ok.injEq, Prod.mk.injEq]
  refine ⟨by trivial, ?_⟩
  rw [decide_eq_decide]
  have hc := cast_two_pow 64
  omega

/-- C1: for every integer kind and canonical operands, `Add` succeeds,
its overflow flag is true exactly when the exact sum leaves the kind's
range, and its value is the sum wrapped modulo `2 ^ width` and
zero/sign-extended back into the 64-bit container. -/
theorem binary_op_add_int_exact (F : FloatOps) (k : PrimValKind) (a b : PrimVal)
    (hk : k.is_int = true) (ha : canonical k a = true) (hb : canonical k b = true) :
    binary_op F .Add a k b k =
      .ok (PrimVal.new (extendBits k
            (((interp k a + interp k b) % 2 ^ kindWidth k).toNat)),
           decide (interp k a + interp k b < kindMin k ∨
                   kindMax k < interp k a + interp k b)) := by
  obtain ⟨ab, ar⟩ := a
  obtain ⟨bb, br⟩ := b
  cases k
  case Bool => simp [PrimValKind.is_int, intKindSpec] at hk
  case F32 => simp [PrimValKind.is_int, intKindSpec] at hk
  case F64 => simp [PrimValKind.is_int, intKindSpec] at hk
  case Ptr => simp [PrimValKind.is_int, intKindSpec] at hk
  case I8 =>
    simp only [canonical, Bool.and_eq_true, Option.isNone_iff_eq_none] at ha hb
    obtain ⟨rfl, -⟩ := ha
    obtain ⟨rfl, -⟩ := hb
    exact add_exact_I8 F ab bb
  case I16 =>
    simp only [canonical, Bool.and_eq_true, Option.isNone_iff_eq_none] at ha hb
    obtain ⟨rfl, -⟩ := ha
    obtain ⟨rfl, -⟩ := hb
    exact add_exact_I16 F ab bb
  case I32 =>
    simp only [canonical, Bool.and_eq_true, Option.isNone_iff_eq_none] at ha hb
    obtain ⟨rfl, -⟩ := ha
    obtain ⟨rfl, -⟩ := hb
    exact add_exact_I32 F ab bb
  case I64 =>
    simp only [canonical, Bool.and_eq_true, Option.isNone_iff_eq_none] at ha hb
    obtain ⟨rfl, -⟩ := ha
    obtain ⟨rfl, -⟩ := hb
    exact add_exact_I64 F ab bb
  case U8 =>
    simp only [canonical, Bool.and_eq_true, Option.isNone_iff_eq_none] at ha hb
    obtain ⟨rfl, -⟩ := ha
    obtain ⟨rfl, -⟩ := hb
    exact add_exact_U8 F ab bb
  case U16 =>
    simp only [canonical, Bool.and_eq_true, Option.isNone_iff_eq_none] at ha hb
    obtain ⟨rfl, -⟩ := ha
    obtain ⟨rfl, -⟩ := hb
    exact add_exact_U16 F ab bb
  case U32 =>
    simp only [canonical, Bool.and_eq_true, Option.isNone_iff_eq_none] at ha hb
    obtain ⟨rfl, -⟩ := ha
    obtain ⟨rfl, -⟩ := hb
    exact add_exact_U32 F ab bb
  case U64 =>
    simp only [canonical, Bool.and_eq_true, Option.isNone_iff_eq_none] at ha hb
    obtain ⟨rfl, -⟩ := ha
    obtain ⟨rfl, -⟩ := hb
    exact add_exact_U64 F ab bb

theorem binary_op_add_int_exact_witness :
    binary_op trivFloatOps .Add (PrimVal.new 250) .U8 (PrimVal.new 10) .U8 =
      .ok (PrimVal.new (extendBits .U8
            (((interp .U8 (PrimVal.new 250) + interp .U8 (PrimVal.new 10)) %
              2 ^ kindWidth .U8).toNat)),
           decide (interp .U8 (PrimVal.new 250) + interp .U8 (PrimVal.new 10) <
                     kindMin .U8 ∨
                   kindMax .U8 < interp .U8 (PrimVal.new 250) +
                     interp .U8 (PrimVal.new 10))) :=
  binary_op_add_int_exact trivFloatOps .U8 (PrimVal.new 250) (PrimVal.new 10)
    (by decide) (by decide) (by decide)


/-- Double bitwise complement at unsigned width `w` restores a canonical
container. -/
theorem not_not_unsigned {w : Nat} (h64 : w ≤ 64) (b : Nat) (hb : b = b % 2 ^ w) :
    (2 ^ w - 1 - (2 ^ w - 1 - b % 2 ^ w) % 2 ^ 64 % 2 ^ w) % 2 ^ 64 = b := by
  have hle : (2 : Nat) ^ w ≤ 2 ^ 64 := Nat.pow_le_pow_right (by norm_num) h64
  have hm : b % 2 ^ w < 2 ^ w := Nat.mod_lt b (Nat.two_pow_pos w)
  have hblt : b < 2 ^ w := by omega
  rw [← hb]
  rw [Nat.mod_eq_of_lt (show 2 ^ w - 1 - b < 2 ^ 64 by omega)]
  rw [Nat.mod_eq_of_lt (show 2 ^ w - 1 - b < 2 ^ w by omega)]
  rw [Nat.mod_eq_of_lt (show 2 ^ w - 1 - (2 ^ w - 1 - b) < 2 ^ 64 by omega)]
  omega

/-- Double bitwise complement at signed width `w` restores a canonical
(sign-extended) container. -/
theorem not_not_signed {w : Nat} (hw : 0 < w) (h64 : w ≤ 64) (b : Nat)
    (hb : b = signExtend w b) :
    signExtend w (2 ^ w - 1 - signExtend w (2 ^ w - 1 - b % 2 ^ w) % 2 ^ 64 % 2 ^ w) %
      2 ^ 64 = b := by
  have hm : b % 2 ^ w < 2 ^ w := Nat.mod_lt b (Nat.two_pow_pos w)
  rw [Nat.mod_eq_of_lt (signExtend_lt _ _), Nat.mod_eq_of_lt (signExtend_lt _ _),
    signExtend_low hw h64]
  rw [Nat.mod_eq_of_lt (show 2 ^ w - 1 - b % 2 ^ w < 2 ^ w by omega)]
  rw [show 2 ^ w - 1 - (2 ^ w - 1 - b % 2 ^ w) = b % 2 ^ w by omega]
  rw [signExtend_mod, ← hb]

/-- C8: on the boolean kind and every integer kind, two applications of
`unary_op(Not, ·)` return the original canonical value. -/
theorem unary_not_involution (k : PrimValKind) (x : PrimVal)
    (hk : k = .Bool ∨ k.is_int = true) (hx : canonical k x = true) :
    (unary_op .Not x k).bind (fun y => unary_op .Not y k) = .ok x := by
  obtain ⟨b, rel⟩ := x
  cases k
  case Bool =>
    simp only [canonical, Bool.and_eq_true, Option.isNone_iff_eq_none, beq_iff_eq,
      Bool.or_eq_true] at hx
    obtain ⟨rfl, hb⟩ := hx
    rcases hb with rfl | rfl <;> rfl
  case I8 =>
    simp only [canonical, extendBits, intKindSpec, Bool.and_eq_true,
      Option.isNone_iff_eq_none, beq_iff_eq] at hx
    obtain ⟨rfl, hb⟩ := hx
    simp only [unary_op, Except.bind, PrimVal.new, Except.ok.injEq, PrimVal.mk.injEq,
      and_true]
    exact not_not_signed (by norm_num) (by norm_num) b hb
  case I16 =>
    simp only [canonical, extendBits, intKindSpec, Bool.and_eq_true,
      Option.isNone_iff_eq_none, beq_iff_eq] at hx
    obtain ⟨rfl, hb⟩ := hx
    simp only [unary_op, Except.bind, PrimVal.new, Except.ok.injEq, PrimVal.mk.injEq,
      and_true]
    exact not_not_signed (by norm_num) (by norm_num) b hb
  case I32 =>
    simp only [canonical, extendBits, intKindSpec, Bool.and_eq_true,
      Option.isNone_iff_eq_none, beq_iff_eq] at hx
    obtain ⟨rfl, hb⟩ := hx
    simp only [unary_op, Except.bind, PrimVal.new, Except.ok.injEq, PrimVal.mk.injEq,
      and_true]
    exact not_not_signed (by norm_num) (by norm_num) b hb
  case I64 =>
    simp only [canonical, extendBits, intKindSpec, Bool.and_eq_true,
      Option.isNone_iff_eq_none, beq_iff_eq] at hx
    obtain ⟨rfl, hb⟩ := hx
    simp only [unary_op, Except.bind, PrimVal.new, Except.ok.injEq, PrimVal.mk.injEq,
      and_true]
    exact not_not_signed (by norm_num) (by norm_num) b hb
  case U8 =>
    simp only [canonical, extendBits, intKindSpec, Bool.and_eq_true,
      Option.isNone_iff_eq_none, beq_iff_eq] at hx
    obtain ⟨rfl, hb⟩ := hx
    simp only [unary_op, Except.bind, PrimVal.new, Except.ok.injEq, PrimVal.mk.injEq,
      and_true]
    exact not_not_unsigned (by norm_num) b hb
  case U16 =>
    simp only [canonical, extendBits, intKindSpec, Bool.and_eq_true,
      Option.isNone_iff_eq_none, beq_iff_eq] at hx
    obtain ⟨rfl, hb⟩ := hx
    simp only [unary_op, Except.bind, PrimVal.new, Except.ok.injEq, PrimVal.mk.injEq,
      and_true]
    exact not_not_unsigned (by norm_num) b hb
  case U32 =>
    simp only [canonical, extendBits, intKindSpec, Bool.and_eq_true,
      Option.isNone_iff_eq_none, beq_iff_eq] at hx
    obtain ⟨rfl, hb⟩ := hx
    simp only [unary_op, Except.bind, PrimVal.new, Except.ok.injEq, PrimVal.mk.injEq,
      and_true]
    exact not_not_unsigned (by norm_num) b hb
  case U64 =>
    simp only [canonical, extendBits, intKindSpec, Bool.and_eq_true,
      Option.isNone_iff_eq_none, beq_iff_eq] at hx
    obtain ⟨rfl, hb⟩ := hx
    simp only [unary_op, Except.bind, PrimVal.new, Except.ok.injEq, PrimVal.mk.injEq,
      and_true]
    exact not_not_unsigned (by norm_num) b hb
  case F32 => rcases hk with h | h <;> simp [PrimValKind.is_int, intKindSpec] at h
  case F64 => rcases hk with h | h <;> simp [PrimValKind.is_int, intKindSpec] at h
  case Ptr => rcases hk with h | h <;> simp [PrimValKind.is_int, intKindSpec] at h

theorem unary_not_involution_witness :
    (unary_op .Not (PrimVal.new 5) .U8).bind (fun y => unary_op .Not y .U8) =
      .ok (PrimVal.new 5) :=
  unary_not_involution .U8 (PrimVal.new 5) (Or.inr (by decide)) (by decide)


/-- Double wrapping negation at width `w ≤ 64` restores a canonical
(sign-extended) container. -/
theorem neg_neg_aux {w : Nat} (hw : 0 < w) (h64 : w ≤ 64) (b : Nat)
    (hb : b = signExtend w b) :
    toU64 (wrapSigned w (-toSigned w (toU64 (wrapSigned w (-toSigned w b)) % 2 ^ 64))) %
      2 ^ 64 = b := by
  rw [Nat.mod_eq_of_lt (toU64_lt _), Nat.mod_eq_of_lt (toU64_lt _),
    toSigned_toU64 hw h64, wrapSigned_wrapSigned, wrapSigned_neg, neg_neg,
    wrapSigned_id hw _ (toSigned_range hw b).1 (toSigned_range hw b).2]
  show signExtend w b = b
  exact hb.symm

/-- Wrapping negation fixes the minimum representable signed value. -/
theorem neg_min_fixed {w : Nat} (hw : 0 < w) (h64 : w ≤ 64) :
    toU64 (wrapSigned w (-toSigned w (signExtend w (2 ^ (w - 1)) % 2 ^ 64))) % 2 ^ 64 =
      signExtend w (2 ^ (w - 1)) % 2 ^ 64 := by
  have hWH := two_pow_int_succ hw
  have hc2 := cast_two_pow (w - 1)
  have hH0 : (0 : Int) < 2 ^ (w - 1) := by positivity
  have hto : toSigned w (2 ^ (w - 1)) = -(2 : Int) ^ (w - 1) := by
    have hlt : (2 : Nat) ^ (w - 1) < 2 ^ w := Nat.pow_lt_pow_right (by norm_num) (by omega)
    rw [toSigned, Nat.mod_eq_of_lt hlt, if_neg (lt_irrefl _)]
    omega
  have hwH : wrapSigned w ((2 : Int) ^ (w - 1)) = -(2 : Int) ^ (w - 1) := by
    rw [wrapSigned, show (2 : Int) ^ (w - 1) + 2 ^ (w - 1) = 2 ^ w * 1 by omega,
      Int.mul_emod_right]
    omega
  rw [Nat.mod_eq_of_lt (signExtend_lt _ _), Nat.mod_eq_of_lt (toU64_lt _), signExtend,
    toSigned_toU64 hw h64, hto,
    wrapSigned_id hw (-((2 : Int) ^ (w - 1))) (by omega) (by omega), neg_neg, hwH]

/-- C7: on every signed integer kind, two applications of
`unary_op(Neg, ·)` return the original canonical value, and the minimum
representable value negates to itself in one application, without any
error or overflow signal. -/
theorem unary_neg_involution_signed (k : PrimValKind) (x : PrimVal)
    (hk : k = .I8 ∨ k = .I16 ∨ k = .I32 ∨ k = .I64) (hx : canonical k x = true) :
    (unary_op .Neg x k).bind (fun y => unary_op .Neg y k) = .ok x ∧
    unary_op .Neg (minValue k) k = .ok (minValue k) := by
  obtain ⟨b, rel⟩ := x
  rcases hk with rfl | rfl | rfl | rfl <;>
  · simp only [canonical, extendBits, intKindSpec, Bool.and_eq_true,
      Option.isNone_iff_eq_none, beq_iff_eq] at hx
    obtain ⟨rfl, hb⟩ := hx
    constructor
    · simp only [unary_op, Except.bind, PrimVal.new, Except.ok.injEq, PrimVal.mk.injEq,
        and_true]
      exact neg_neg_aux (by norm_num) (by norm_num) b hb
    · simp only [minValue, kindWidth, intKindSpec, unary_op, PrimVal.new,
        Except.ok.injEq, PrimVal.mk.injEq, and_true]
      exact neg_min_fixed (by norm_num) (by norm_num)

theorem unary_neg_involution_signed_witness :
    ((unary_op .Neg (PrimVal.new 5) .I8).bind (fun y => unary_op .Neg y .I8) =
      .ok (PrimVal.new 5) ∧
    unary_op .Neg (minValue .I8) .I8 = .ok (minValue .I8)) :=
  unary_neg_involution_signed .I8 (PrimVal.new 5) (Or.inl rfl) (by decide)

end MiriOp
